import Mathlib

/-!
Verification of the numeric core of LinearDilutionApp: temperature-dependent
density estimation, the two-component forward and inverse mixing solvers, and
the two-segment gradient point generation. All arithmetic is modelled over ℚ
(exact arithmetic); Python float rounding to n decimal places is modelled by
the roundTo function below.
-/

/-- Rounding to n decimal places, modelling Python round(x, n). -/
def roundTo (n : ℕ) (q : ℚ) : ℚ := (round (q * 10 ^ n) : ℚ) / 10 ^ n

/-- Embedding of get_densities: water density from the empirical polynomial,
converted to g/cm3 and rounded to 5 decimals; saline density as water
density times 1.0064, rounded to 4 decimals. -/
def get_densities (temp : ℚ) : ℚ × ℚ :=
  let rho_water : ℚ :=
    1000 * (1 - (temp + 2889414/10000) / (5089292/10 * (temp + 6812963/100000))
      * (temp - 39863/10000) ^ 2)
  let rho_water_g := roundTo 5 (rho_water / 1000)
  let rho_saline_g := roundTo 4 (rho_water_g * (10064/10000))
  (rho_water_g, rho_saline_g)

/-- Embedding of calc_theoretical_masses: the forward solver returning the
(mass_high, mass_low) split for a target concentration. -/
def calc_theoretical_masses (tc tm c_h rho_h c_l rho_l : ℚ) : ℚ × ℚ :=
  if tc ≥ c_h then (tm, 0)
  else if tc ≤ c_l then (0, tm)
  else if (c_h - tc) / rho_h + (tc - c_l) / rho_l = 0 then (0, tm)
  else
    (max 0 (min ((tm * ((tc - c_l) / rho_l)) / ((c_h - tc) / rho_h + (tc - c_l) / rho_l)) tm),
     tm - max 0 (min ((tm * ((tc - c_l) / rho_l)) / ((c_h - tc) / rho_h + (tc - c_l) / rho_l)) tm))

/-- Embedding of calc_actual_volume_conc: the inverse solver returning the
volume-weighted achieved concentration from actual masses. -/
def calc_actual_volume_conc (m_h m_l c_h rho_h c_l rho_l : ℚ) : ℚ :=
  if m_h / rho_h + m_l / rho_l = 0 then 0
  else ((m_h / rho_h) * c_h + (m_l / rho_l) * c_l) / (m_h / rho_h + m_l / rho_l)

/-- Embedding of mid_idx = num_points // 2. -/
def mid_index (n : ℕ) : ℕ := n / 2

/-- Embedding of pts_low: the lower gradient segment, mid_index points from
c_l with spacing (mid - c_l) / mid_index. -/
def pts_low (c_l mid : ℚ) (n : ℕ) : List ℚ :=
  (List.range (mid_index n)).map
    (fun i : ℕ => c_l + (i : ℚ) * ((mid - c_l) / (mid_index n : ℚ)))

/-- Embedding of pts_high: the upper gradient segment, n - mid_index points
from mid with spacing (c_h - mid) / (n - mid_index - 1). -/
def pts_high (mid c_h : ℚ) (n : ℕ) : List ℚ :=
  (List.range (n - mid_index n)).map
    (fun i : ℕ => mid + (i : ℚ) * ((c_h - mid) / ((n - mid_index n - 1 : ℕ) : ℚ)))

/-- Embedding of all_targets = pts_low + pts_high. -/
def all_targets (c_l mid c_h : ℚ) (n : ℕ) : List ℚ :=
  pts_low c_l mid n ++ pts_high mid c_h n

/-- Helper: the forward solver always returns a split summing to tm with both
components in the interval from 0 to tm, whenever tm is nonnegative. -/
lemma calc_masses_bounds (tc tm c_h rho_h c_l rho_l : ℚ) (htm : 0 ≤ tm) :
    (calc_theoretical_masses tc tm c_h rho_h c_l rho_l).1 +
      (calc_theoretical_masses tc tm c_h rho_h c_l rho_l).2 = tm ∧
    0 ≤ (calc_theoretical_masses tc tm c_h rho_h c_l rho_l).1 ∧
    (calc_theoretical_masses tc tm c_h rho_h c_l rho_l).1 ≤ tm ∧
    0 ≤ (calc_theoretical_masses tc tm c_h rho_h c_l rho_l).2 ∧
    (calc_theoretical_masses tc tm c_h rho_h c_l rho_l).2 ≤ tm := by
  unfold calc_theoretical_masses
  split_ifs <;> simp only
  · exact ⟨by ring, htm, le_refl _, le_refl _, htm⟩
  · exact ⟨by ring, le_refl _, htm, htm, le_refl _⟩
  · exact ⟨by ring, le_refl _, htm, htm, le_refl _⟩
  · have h1 : max 0 (min ((tm * ((tc - c_l) / rho_l)) / ((c_h - tc) / rho_h + (tc - c_l) / rho_l)) tm) ≤ tm :=
      max_le htm (min_le_right _ _)
    have h2 : (0 : ℚ) ≤ max 0 (min ((tm * ((tc - c_l) / rho_l)) / ((c_h - tc) / rho_h + (tc - c_l) / rho_l)) tm) :=
      le_max_left _ _
    exact ⟨by ring, h2, h1, by linarith, by linarith⟩

/-- Helper: in the interior region c_l < tc < c_h with positive densities,
the degenerate divisor is nonzero and the forward solver takes the division
branch. -/
lemma ctm_interior (tc tm c_h rho_h c_l rho_l : ℚ) (h1 : c_l < tc) (h2 : tc < c_h)
    (hrh : 0 < rho_h) (hrl : 0 < rho_l) :
    (c_h - tc) / rho_h + (tc - c_l) / rho_l ≠ 0 ∧
    calc_theoretical_masses tc tm c_h rho_h c_l rho_l =
      (max 0 (min ((tm * ((tc - c_l) / rho_l)) / ((c_h - tc) / rho_h + (tc - c_l) / rho_l)) tm),
       tm - max 0 (min ((tm * ((tc - c_l) / rho_l)) / ((c_h - tc) / rho_h + (tc - c_l) / rho_l)) tm)) := by
  have hk1 : 0 < (c_h - tc) / rho_h := div_pos (by linarith) hrh
  have hk2 : 0 < (tc - c_l) / rho_l := div_pos (by linarith) hrl
  have hs : (c_h - tc) / rho_h + (tc - c_l) / rho_l ≠ 0 := ne_of_gt (by linarith)
  refine ⟨hs, ?_⟩
  unfold calc_theoretical_masses
  rw [if_neg (not_le.mpr h2), if_neg (not_le.mpr h1), if_neg hs]

/-- C3: with c_high > c_low, the forward solver saturates: any target at or
above c_high yields (total_mass, 0), and any target at or below c_low yields
(0, total_mass), the boundary ties included. -/
theorem solve_forward_saturates (tc tm c_h rho_h c_l rho_l : ℚ) (hc : c_l < c_h) :
    (c_h ≤ tc → calc_theoretical_masses tc tm c_h rho_h c_l rho_l = (tm, 0)) ∧
    (tc ≤ c_l → calc_theoretical_masses tc tm c_h rho_h c_l rho_l = (0, tm)) := by
  constructor
  · intro h
    unfold calc_theoretical_masses
    rw [if_pos h]
  · intro h
    unfold calc_theoretical_masses
    rw [if_neg (not_le.mpr (lt_of_le_of_lt h hc)), if_pos h]

theorem solve_forward_saturates_witness :
    (0 : ℚ) < 100 ∧
    (((100 : ℚ) ≤ 100 → calc_theoretical_masses 100 350 100 (21/20) 0 1 = (350, 0)) ∧
     ((100 : ℚ) ≤ 0 → calc_theoretical_masses 100 350 100 (21/20) 0 1 = (0, 350))) :=
  ⟨by norm_num, solve_forward_saturates 100 350 100 (21/20) 0 1 (by norm_num)⟩

/-- C4: for positive densities and nonnegative total mass, the forward solver
returns masses summing to total_mass with both components inside 0..total_mass. -/
theorem solve_forward_mass_invariant (tc tm c_h rho_h c_l rho_l : ℚ)
    (hrh : 0 < rho_h) (hrl : 0 < rho_l) (htm : 0 ≤ tm) :
    (calc_theoretical_masses tc tm c_h rho_h c_l rho_l).1 +
      (calc_theoretical_masses tc tm c_h rho_h c_l rho_l).2 = tm ∧
    0 ≤ (calc_theoretical_masses tc tm c_h rho_h c_l rho_l).1 ∧
    (calc_theoretical_masses tc tm c_h rho_h c_l rho_l).1 ≤ tm ∧
    0 ≤ (calc_theoretical_masses tc tm c_h rho_h c_l rho_l).2 ∧
    (calc_theoretical_masses tc tm c_h rho_h c_l rho_l).2 ≤ tm :=
  calc_masses_bounds tc tm c_h rho_h c_l rho_l htm

theorem solve_forward_mass_invariant_witness :
    (0 : ℚ) < 21/20 ∧ (0 : ℚ) < 1 ∧ (0 : ℚ) ≤ 350 ∧
    ((calc_theoretical_masses 50 350 100 (21/20) 0 1).1 +
      (calc_theoretical_masses 50 350 100 (21/20) 0 1).2 = 350 ∧
    0 ≤ (calc_theoretical_masses 50 350 100 (21/20) 0 1).1 ∧
    (calc_theoretical_masses 50 350 100 (21/20) 0 1).1 ≤ 350 ∧
    0 ≤ (calc_theoretical_masses 50 350 100 (21/20) 0 1).2 ∧
    (calc_theoretical_masses 50 350 100 (21/20) 0 1).2 ≤ 350) :=
  ⟨by norm_num, by norm_num, by norm_num,
   solve_forward_mass_invariant 50 350 100 (21/20) 0 1 (by norm_num) (by norm_num) (by norm_num)⟩

/-- C5: with the fixed precision N = 4, for every temperature in 0..40 the
saline density equals the water density (already rounded to 5 decimals)
multiplied by 1.0064 and rounded to N decimals. -/
theorem saline_density_rounding (t : ℚ) (h0 : 0 ≤ t) (h40 : t ≤ 40) :
    (get_densities t).2 = roundTo 4 ((get_densities t).1 * (10064/10000)) := rfl

theorem saline_density_rounding_witness :
    (0 : ℚ) ≤ 22 ∧ (22 : ℚ) ≤ 40 ∧
    (get_densities 22).2 = roundTo 4 ((get_densities 22).1 * (10064/10000)) :=
  ⟨by norm_num, by norm_num, saline_density_rounding 22 (by norm_num) (by norm_num)⟩

/-- C6: the inverse solver returns 0 when the volume sum is zero, and the
volume-weighted average concentration otherwise. -/
theorem solve_inverse_formula (m_h m_l c_h rho_h c_l rho_l : ℚ)
    (hmh : 0 ≤ m_h) (hml : 0 ≤ m_l) (hrh : 0 < rho_h) (hrl : 0 < rho_l) :
    (m_h / rho_h + m_l / rho_l = 0 → calc_actual_volume_conc m_h m_l c_h rho_h c_l rho_l = 0) ∧
    (m_h / rho_h + m_l / rho_l ≠ 0 →
      calc_actual_volume_conc m_h m_l c_h rho_h c_l rho_l =
        ((m_h / rho_h) * c_h + (m_l / rho_l) * c_l) / (m_h / rho_h + m_l / rho_l)) := by
  constructor
  · intro h
    unfold calc_actual_volume_conc
    rw [if_pos h]
  · intro h
    unfold calc_actual_volume_conc
    rw [if_neg h]

theorem solve_inverse_formula_witness :
    (0 : ℚ) ≤ 200 ∧ (0 : ℚ) ≤ 150 ∧ (0 : ℚ) < 21/20 ∧ (0 : ℚ) < 1 ∧
    (((200 : ℚ) / (21/20) + 150 / 1 = 0 → calc_actual_volume_conc 200 150 100 (21/20) 0 1 = 0) ∧
     ((200 : ℚ) / (21/20) + 150 / 1 ≠ 0 →
       calc_actual_volume_conc 200 150 100 (21/20) 0 1 =
         ((200 / (21/20)) * 100 + (150 / 1) * 0) / (200 / (21/20) + 150 / 1))) :=
  ⟨by norm_num, by norm_num, by norm_num, by norm_num,
   solve_inverse_formula 200 150 100 (21/20) 0 1 (by norm_num) (by norm_num) (by norm_num) (by norm_num)⟩

/-- C9: in the interior branch with positive densities, the divisor
k_high + k_low is nonzero, so the degenerate fallback is unreachable and the
solver takes the well-defined division branch. -/
theorem interior_divisor_nonzero (tc tm c_h rho_h c_l rho_l : ℚ)
    (h1 : c_l < tc) (h2 : tc < c_h) (hrh : 0 < rho_h) (hrl : 0 < rho_l) :
    (c_h - tc) / rho_h + (tc - c_l) / rho_l ≠ 0 ∧
    calc_theoretical_masses tc tm c_h rho_h c_l rho_l =
      (max 0 (min ((tm * ((tc - c_l) / rho_l)) / ((c_h - tc) / rho_h + (tc - c_l) / rho_l)) tm),
       tm - max 0 (min ((tm * ((tc - c_l) / rho_l)) / ((c_h - tc) / rho_h + (tc - c_l) / rho_l)) tm)) :=
  ctm_interior tc tm c_h rho_h c_l rho_l h1 h2 hrh hrl

theorem interior_divisor_nonzero_witness :
    (0 : ℚ) < 50 ∧ (50 : ℚ) < 100 ∧ (0 : ℚ) < 21/20 ∧ (0 : ℚ) < 1 ∧
    (((100 : ℚ) - 50) / (21/20) + (50 - 0) / 1 ≠ 0 ∧
     calc_theoretical_masses 50 350 100 (21/20) 0 1 =
       (max 0 (min ((350 * (((50 : ℚ) - 0) / 1)) / ((100 - 50) / (21/20) + (50 - 0) / 1)) 350),
        350 - max 0 (min ((350 * (((50 : ℚ) - 0) / 1)) / ((100 - 50) / (21/20) + (50 - 0) / 1)) 350))) :=
  ⟨by norm_num, by norm_num, by norm_num, by norm_num,
   interior_divisor_nonzero 50 350 100 (21/20) 0 1 (by norm_num) (by norm_num) (by norm_num) (by norm_num)⟩

/-- C10: for every num_points at least 3, mid_index is at least 1 and
num_points - mid_index - 1 is at least 1, so neither segment-spacing divisor
in the gradient generation is zero. -/
theorem mid_index_segments_positive (n : ℕ) (h : 3 ≤ n) :
    1 ≤ mid_index n ∧ 1 ≤ n - mid_index n - 1 := by
  unfold mid_index
  omega

theorem mid_index_segments_positive_witness :
    3 ≤ 8 ∧ (1 ≤ mid_index 8 ∧ 1 ≤ 8 - mid_index 8 - 1) :=
  ⟨by norm_num, mid_index_segments_positive 8 (by norm_num)⟩

/-- C1 counterexample: in the concrete scenario c_high=100, c_low=0, mid=50,
num_points=8, the upper segment is not [50, 62.5, 75, 87.5] (nor that list
with 100 appended): the code spacing is (100-50)/(8-4-1) = 50/3, not 12.5. -/
theorem gradient_concrete_counterexample :
    pts_high (50 : ℚ) 100 8 ≠ [50, 125/2, 75, 175/2] ∧
    pts_high (50 : ℚ) 100 8 ≠ [50, 125/2, 75, 175/2, 100] := by
  constructor <;> norm_num [pts_high, mid_index, List.range_succ]

/-- C1 amended: in the concrete scenario, mid_index = 4, the lower segment is
exactly [0, 12.5, 25, 37.5], and the upper segment has 4 points with spacing
50/3: exactly [50, 200/3, 250/3, 100], ending at c_high. -/
theorem gradient_concrete_amended :
    mid_index 8 = 4 ∧
    pts_low (0 : ℚ) 50 8 = [0, 25/2, 25, 75/2] ∧
    pts_high (50 : ℚ) 100 8 = [50, 200/3, 250/3, 100] ∧
    all_targets (0 : ℚ) 50 100 8 = [0, 25/2, 25, 75/2, 50, 200/3, 250/3, 100] := by
  refine ⟨by norm_num [mid_index], ?_, ?_, ?_⟩ <;>
    norm_num [all_targets, pts_low, pts_high, mid_index, List.range_succ]

/-- Helper: an arithmetic progression with nonnegative step, listed over
List.range, is pairwise nondecreasing. -/
lemma pairwise_affine (a s : ℚ) (hs : 0 ≤ s) (k : ℕ) :
    ((List.range k).map (fun i : ℕ => a + (i : ℚ) * s)).Pairwise (· ≤ ·) := by
  rw [List.pairwise_map]
  refine (List.pairwise_lt_range k).imp ?_
  intro i j hij
  have hij' : (i : ℚ) ≤ (j : ℚ) := by exact_mod_cast hij.le
  have := mul_le_mul_of_nonneg_right hij' hs
  linarith

/-- Helper: every lower-segment point is at most the mid concentration. -/
lemma pts_low_le_mid (c_l mid : ℚ) (n : ℕ) (hlm : c_l ≤ mid) :
    ∀ x ∈ pts_low c_l mid n, x ≤ mid := by
  intro x hx
  simp only [pts_low, List.mem_map, List.mem_range] at hx
  obtain ⟨i, hi, rfl⟩ := hx
  have hmq : ((mid_index n : ℕ) : ℚ) ≠ 0 := Nat.cast_ne_zero.mpr (by omega)
  have hi' : (i : ℚ) ≤ ((mid_index n : ℕ) : ℚ) := by exact_mod_cast hi.le
  have hdiv : 0 ≤ (mid - c_l) / ((mid_index n : ℕ) : ℚ) :=
    div_nonneg (by linarith) (Nat.cast_nonneg _)
  have key : ((mid_index n : ℕ) : ℚ) * ((mid - c_l) / ((mid_index n : ℕ) : ℚ)) = mid - c_l := by
    field_simp
  nlinarith [mul_le_mul_of_nonneg_right hi' hdiv]

/-- Helper: every upper-segment point is at least the mid concentration. -/
lemma mid_le_pts_high (mid c_h : ℚ) (n : ℕ) (hmh : mid ≤ c_h) :
    ∀ y ∈ pts_high mid c_h n, mid ≤ y := by
  intro y hy
  simp only [pts_high, List.mem_map, List.mem_range] at hy
  obtain ⟨i, hi, rfl⟩ := hy
  have : 0 ≤ (i : ℚ) * ((c_h - mid) / ((n - mid_index n - 1 : ℕ) : ℚ)) :=
    mul_nonneg (Nat.cast_nonneg i) (div_nonneg (by linarith) (Nat.cast_nonneg _))
  linarith

/-- C2: for c_low at most mid at most c_high and num_points at least 3, the
gradient target sequence has exactly num_points entries, starts at c_low,
ends at c_high, carries mid exactly at index mid_index, and is nondecreasing
throughout. -/
theorem gradient_plan_invariants (c_l mid c_h : ℚ) (n : ℕ)
    (h3 : 3 ≤ n) (hlm : c_l ≤ mid) (hmh : mid ≤ c_h) :
    (all_targets c_l mid c_h n).length = n ∧
    (all_targets c_l mid c_h n)[0]? = some c_l ∧
    (all_targets c_l mid c_h n)[n - 1]? = some c_h ∧
    (all_targets c_l mid c_h n)[mid_index n]? = some mid ∧
    (all_targets c_l mid c_h n).Pairwise (· ≤ ·) := by
  have hm1 : 1 ≤ mid_index n := by unfold mid_index; omega
  have hmn : mid_index n < n := by unfold mid_index; omega
  have hd2 : 2 ≤ n - mid_index n := by unfold mid_index; omega
  have hlenL : (pts_low c_l mid n).length = mid_index n := by
    simp [pts_low]
  have hlenH : (pts_high mid c_h n).length = n - mid_index n := by
    simp [pts_high]
  refine ⟨?_, ?_, ?_, ?_, ?_⟩
  · simp only [all_targets, List.length_append, hlenL, hlenH]
    omega
  · rw [all_targets, List.getElem?_append, hlenL, if_pos (by omega : 0 < mid_index n)]
    have h0 : 0 < mid_index n := by omega
    simp [pts_low, h0]
  · rw [all_targets, List.getElem?_append, hlenL, if_neg (by omega : ¬ n - 1 < mid_index n)]
    have hidx : n - 1 - mid_index n = n - mid_index n - 1 := by omega
    have hlt : n - mid_index n - 1 < n - mid_index n := by omega
    rw [hidx]
    have hq : ((n - mid_index n - 1 : ℕ) : ℚ) ≠ 0 := Nat.cast_ne_zero.mpr (by omega)
    simp only [pts_high, List.getElem?_map, List.getElem?_range, hlt, if_pos, Option.map_some']
    have cancel : ((n - mid_index n - 1 : ℕ) : ℚ) *
        ((c_h - mid) / ((n - mid_index n - 1 : ℕ) : ℚ)) = c_h - mid := by
      rw [mul_comm, div_mul_cancel₀ _ hq]
    congr 1
    linarith [cancel]
  · rw [all_targets, List.getElem?_append, hlenL, if_neg (by omega : ¬ mid_index n < mid_index n),
      Nat.sub_self]
    have h0 : 0 < n - mid_index n := by omega
    simp [pts_high, h0]
  · rw [all_targets, List.pairwise_append]
    refine ⟨pairwise_affine _ _ (div_nonneg (by linarith) (Nat.cast_nonneg _)) _,
            pairwise_affine _ _ (div_nonneg (by linarith) (Nat.cast_nonneg _)) _, ?_⟩
    intro x hx y hy
    exact le_trans (pts_low_le_mid c_l mid n hlm x hx) (mid_le_pts_high mid c_h n hmh y hy)

theorem gradient_plan_invariants_witness :
    3 ≤ 8 ∧ (0 : ℚ) ≤ 50 ∧ (50 : ℚ) ≤ 100 ∧
    ((all_targets (0 : ℚ) 50 100 8).length = 8 ∧
     (all_targets (0 : ℚ) 50 100 8)[0]? = some 0 ∧
     (all_targets (0 : ℚ) 50 100 8)[8 - 1]? = some 100 ∧
     (all_targets (0 : ℚ) 50 100 8)[mid_index 8]? = some 50 ∧
     (all_targets (0 : ℚ) 50 100 8).Pairwise (· ≤ ·)) :=
  ⟨by norm_num, by norm_num, by norm_num,
   gradient_plan_invariants 0 50 100 8 (by norm_num) (by norm_num) (by norm_num)⟩

/-- Helper: the interior mass ratio tm * a / (b + a) is monotone when the
cross products satisfy a1 * b2 at most a2 * b1. -/
lemma ratio_mono (tm a1 b1 a2 b2 : ℚ) (htm : 0 ≤ tm)
    (ha1 : 0 < a1) (hb1 : 0 < b1) (ha2 : 0 < a2) (hb2 : 0 < b2)
    (key : a1 * b2 ≤ a2 * b1) :
    tm * a1 / (b1 + a1) ≤ tm * a2 / (b2 + a2) := by
  rw [div_le_div_iff₀ (by linarith) (by linarith)]
  nlinarith [mul_le_mul_of_nonneg_left key htm]

/-- C7: for fixed nonnegative total mass, c_high > c_low and positive
densities, the mass_high component of the forward solver is nondecreasing in
the target concentration. -/
theorem solve_forward_monotone (tm c_h rho_h c_l rho_l t1 t2 : ℚ)
    (htm : 0 ≤ tm) (hc : c_l < c_h) (hrh : 0 < rho_h) (hrl : 0 < rho_l) (h12 : t1 ≤ t2) :
    (calc_theoretical_masses t1 tm c_h rho_h c_l rho_l).1 ≤
      (calc_theoretical_masses t2 tm c_h rho_h c_l rho_l).1 := by
  by_cases h2h : c_h ≤ t2
  · have hR : calc_theoretical_masses t2 tm c_h rho_h c_l rho_l = (tm, 0) := by
      unfold calc_theoretical_masses
      rw [if_pos h2h]
    rw [hR]
    exact (calc_masses_bounds t1 tm c_h rho_h c_l rho_l htm).2.2.1
  · push_neg at h2h
    have h1h : t1 < c_h := lt_of_le_of_lt h12 h2h
    by_cases h1l : t1 ≤ c_l
    · have hL : calc_theoretical_masses t1 tm c_h rho_h c_l rho_l = (0, tm) := by
        unfold calc_theoretical_masses
        rw [if_neg (not_le.mpr h1h), if_pos h1l]
      rw [hL]
      exact (calc_masses_bounds t2 tm c_h rho_h c_l rho_l htm).2.1
    · push_neg at h1l
      have h2l : c_l < t2 := lt_of_lt_of_le h1l h12
      obtain ⟨hs1, he1⟩ := ctm_interior t1 tm c_h rho_h c_l rho_l h1l h1h hrh hrl
      obtain ⟨hs2, he2⟩ := ctm_interior t2 tm c_h rho_h c_l rho_l h2l h2h hrh hrl
      rw [he1, he2]
      simp only
      have key : (t1 - c_l) / rho_l * ((c_h - t2) / rho_h) ≤
          (t2 - c_l) / rho_l * ((c_h - t1) / rho_h) := by
        rw [div_mul_div_comm, div_mul_div_comm]
        apply div_le_div_of_nonneg_right ?_ (by positivity)
        · nlinarith [mul_nonneg (sub_nonneg.mpr h12) (sub_nonneg.mpr hc.le)]
      have hX : (tm * ((t1 - c_l) / rho_l)) / ((c_h - t1) / rho_h + (t1 - c_l) / rho_l) ≤
          (tm * ((t2 - c_l) / rho_l)) / ((c_h - t2) / rho_h + (t2 - c_l) / rho_l) := by
        have := ratio_mono tm ((t1 - c_l) / rho_l) ((c_h - t1) / rho_h)
          ((t2 - c_l) / rho_l) ((c_h - t2) / rho_h) htm
          (div_pos (by linarith) hrl) (div_pos (by linarith) hrh)
          (div_pos (by linarith) hrl) (div_pos (by linarith) hrh) key
        linarith [this]
      exact max_le_max (le_refl 0) (min_le_min hX (le_refl tm))

theorem solve_forward_monotone_witness :
    (0 : ℚ) ≤ 350 ∧ (0 : ℚ) < 100 ∧ (0 : ℚ) < 21/20 ∧ (0 : ℚ) < 1 ∧ (30 : ℚ) ≤ 60 ∧
    (calc_theoretical_masses 30 350 100 (21/20) 0 1).1 ≤
      (calc_theoretical_masses 60 350 100 (21/20) 0 1).1 :=
  ⟨by norm_num, by norm_num, by norm_num, by norm_num, by norm_num,
   solve_forward_monotone 350 100 (21/20) 0 1 30 60
     (by norm_num) (by norm_num) (by norm_num) (by norm_num) (by norm_num)⟩

/-- Helper: applying the forward solver to the achieved concentration of a
mass split, with total mass equal to that split's sum, recovers the split
exactly. -/
lemma forward_inverse_eq (m_h m_l c_h rho_h c_l rho_l : ℚ)
    (hmh : 0 ≤ m_h) (hml : 0 ≤ m_l) (hrh : 0 < rho_h) (hrl : 0 < rho_l) (hc : c_l < c_h) :
    calc_theoretical_masses (calc_actual_volume_conc m_h m_l c_h rho_h c_l rho_l)
      (m_h + m_l) c_h rho_h c_l rho_l = (m_h, m_l) := by
  have hvh : 0 ≤ m_h / rho_h := div_nonneg hmh hrh.le
  have hvl : 0 ≤ m_l / rho_l := div_nonneg hml hrl.le
  by_cases hz : m_h / rho_h + m_l / rho_l = 0
  · have hvh0 : m_h / rho_h = 0 := by linarith
    have hvl0 : m_l / rho_l = 0 := by linarith
    have hmh0 : m_h = 0 := by
      rcases div_eq_zero_iff.mp hvh0 with h | h
      · exact h
      · exact absurd h (ne_of_gt hrh)
    have hml0 : m_l = 0 := by
      rcases div_eq_zero_iff.mp hvl0 with h | h
      · exact h
      · exact absurd h (ne_of_gt hrl)
    subst hmh0
    subst hml0
    have hc0 : calc_actual_volume_conc 0 0 c_h rho_h c_l rho_l = 0 := by
      unfold calc_actual_volume_conc
      simp
    rw [hc0]
    unfold calc_theoretical_masses
    split_ifs <;> norm_num
  · have hS : 0 < m_h / rho_h + m_l / rho_l := lt_of_le_of_ne (by linarith) (Ne.symm hz)
    have hceq : calc_actual_volume_conc m_h m_l c_h rho_h c_l rho_l =
        ((m_h / rho_h) * c_h + (m_l / rho_l) * c_l) / (m_h / rho_h + m_l / rho_l) := by
      unfold calc_actual_volume_conc
      rw [if_neg hz]
    by_cases hml0 : m_l = 0
    · subst hml0
      have hch : calc_actual_volume_conc m_h 0 c_h rho_h c_l rho_l = c_h := by
        have hmne : m_h ≠ 0 := by
          intro h
          rw [h, zero_div] at hz
          simp at hz
        rw [hceq, zero_div]
        field_simp
      rw [hch]
      unfold calc_theoretical_masses
      rw [if_pos (le_refl c_h)]
      norm_num
    · by_cases hmh0 : m_h = 0
      · subst hmh0
        have hcl : calc_actual_volume_conc 0 m_l c_h rho_h c_l rho_l = c_l := by
          rw [hceq, zero_div]
          have hvl' : m_l / rho_l ≠ 0 := by
            intro h
            rw [h] at hz
            simp at hz
          field_simp
        rw [hcl]
        unfold calc_theoretical_masses
        rw [if_neg (not_le.mpr hc), if_pos (le_refl c_l)]
        norm_num
      · have hmh' : 0 < m_h := lt_of_le_of_ne hmh (Ne.symm hmh0)
        have hml' : 0 < m_l := lt_of_le_of_ne hml (Ne.symm hml0)
        have hvh' : 0 < m_h / rho_h := div_pos hmh' hrh
        have hvl' : 0 < m_l / rho_l := div_pos hml' hrl
        have hclt : c_l < calc_actual_volume_conc m_h m_l c_h rho_h c_l rho_l := by
          rw [hceq, lt_div_iff₀ hS]
          nlinarith [mul_pos hvh' (sub_pos.mpr hc)]
        have hcht : calc_actual_volume_conc m_h m_l c_h rho_h c_l rho_l < c_h := by
          rw [hceq, div_lt_iff₀ hS]
          nlinarith [mul_pos hvl' (sub_pos.mpr hc)]
        obtain ⟨hsne, he⟩ :=
          ctm_interior (calc_actual_volume_conc m_h m_l c_h rho_h c_l rho_l)
            (m_h + m_l) c_h rho_h c_l rho_l hclt hcht hrh hrl
        rw [he]
        rw [hceq] at hsne ⊢
        have hX : ((m_h + m_l) *
            ((((m_h / rho_h) * c_h + (m_l / rho_l) * c_l) / (m_h / rho_h + m_l / rho_l) - c_l) / rho_l)) /
            ((c_h - ((m_h / rho_h) * c_h + (m_l / rho_l) * c_l) / (m_h / rho_h + m_l / rho_l)) / rho_h +
             (((m_h / rho_h) * c_h + (m_l / rho_l) * c_l) / (m_h / rho_h + m_l / rho_l) - c_l) / rho_l) = m_h := by
          rw [div_eq_iff hsne]
          field_simp
          ring
        rw [hX]
        have hmin : min m_h (m_h + m_l) = m_h := min_eq_left (by linarith)
        have hmax : max 0 m_h = m_h := max_eq_right hmh
        rw [hmin, hmax]
        congr 1
        ring

/-- C8: the round trip inverse, forward at the achieved concentration with
total mass equal to the original sum, then inverse again reproduces the
original achieved concentration within the 1e-6 tolerance (in fact exactly). -/
theorem solve_roundtrip (m_h m_l c_h rho_h c_l rho_l : ℚ)
    (hmh : 0 ≤ m_h) (hml : 0 ≤ m_l) (hrh : 0 < rho_h) (hrl : 0 < rho_l) (hc : c_l < c_h) :
    |calc_actual_volume_conc
        (calc_theoretical_masses (calc_actual_volume_conc m_h m_l c_h rho_h c_l rho_l)
          (m_h + m_l) c_h rho_h c_l rho_l).1
        (calc_theoretical_masses (calc_actual_volume_conc m_h m_l c_h rho_h c_l rho_l)
          (m_h + m_l) c_h rho_h c_l rho_l).2
        c_h rho_h c_l rho_l
      - calc_actual_volume_conc m_h m_l c_h rho_h c_l rho_l| ≤ 1 / 1000000 := by
  rw [forward_inverse_eq m_h m_l c_h rho_h c_l rho_l hmh hml hrh hrl hc]
  simp

theorem solve_roundtrip_witness :
    (0 : ℚ) ≤ 200 ∧ (0 : ℚ) ≤ 150 ∧ (0 : ℚ) < 21/20 ∧ (0 : ℚ) < 1 ∧ (0 : ℚ) < 100 ∧
    |calc_actual_volume_conc
        (calc_theoretical_masses (calc_actual_volume_conc 200 150 100 (21/20) 0 1)
          (200 + 150) 100 (21/20) 0 1).1
        (calc_theoretical_masses (calc_actual_volume_conc 200 150 100 (21/20) 0 1)
          (200 + 150) 100 (21/20) 0 1).2
        100 (21/20) 0 1
      - calc_actual_volume_conc 200 150 100 (21/20) 0 1| ≤ 1 / 1000000 :=
  ⟨by norm_num, by norm_num, by norm_num, by norm_num, by norm_num,
   solve_roundtrip 200 150 100 (21/20) 0 1
     (by norm_num) (by norm_num) (by norm_num) (by norm_num) (by norm_num)⟩
